import Mathlib

/-!
Verification of the chocomufin command-line interface (src/chocomufin/cli.py).

Strings are embedded as lists of Unicode characters (`List Char`); file
systems as functions from paths to contents.  Functions imported by cli.py
from chocomufin.funcs and chocomufin.parsers are not part of the sources;
where a claim depends on them they are modelled from the specification and
marked as such, otherwise they are kept abstract (universally quantified).
-/

namespace Chocomufin

/-- A file path, as a list of characters. -/
abbrev Path := List Char

/-- A file system: maps a path to the contents of the file stored there. -/
abbrev FS := Path → List Char

/-- Python substring test `pat in s` (True when `pat` occurs contiguously in
`s`; an empty pattern occurs in every string). -/
def containsSub : List Char → List Char → Bool
  | [], pat => pat.isEmpty
  | c :: rest, pat =>
    if List.take pat.length (c :: rest) = pat then true
    else containsSub rest pat

/-- The literal pattern ".xml" from cli.py line 128. -/
def xmlPat : List Char := ['.', 'x', 'm', 'l']

/-- Python `file.replace(".xml", suffix)` (cli.py line 128): every
non-overlapping occurrence of ".xml", scanning left to right, is replaced
by `repl`.  Strings shorter than the four-character pattern contain no
occurrence and are returned unchanged. -/
def replaceXml (repl : List Char) : List Char → List Char
  | [] => []
  | [c] => [c]
  | [c, a] => [c, a]
  | [c, a, b] => [c, a, b]
  | c :: a :: b :: d :: r =>
    if [c, a, b, d] = xmlPat then repl ++ replaceXml repl r
    else c :: replaceXml repl (a :: b :: d :: r)

/-- Splitting on the pattern ".xml": the groups of characters between the
non-overlapping, left-to-right occurrences of ".xml".  Used only to state
the corrected form of claim C2. -/
def splitOnXml : List Char → List (List Char)
  | [] => [[]]
  | [c] => [[c]]
  | [c, a] => [[c, a]]
  | [c, a, b] => [[c, a, b]]
  | c :: a :: b :: d :: r =>
    if [c, a, b, d] = xmlPat then [] :: splitOnXml r
    else
      match splitOnXml (a :: b :: d :: r) with
      | [] => [[c]]
      | g :: gs => (c :: g) :: gs

/-- Interleaving a separator between groups (Python `sep.join(groups)`). -/
def intercalateL (sep : List Char) : List (List Char) → List Char
  | [] => []
  | [g] => g
  | g :: g' :: gs => g ++ sep ++ intercalateL sep (g' :: gs)

/-- Output filename of `convert` (cli.py line 128):
`file.replace(".xml", suffix) if ".xml" in file else file + suffix`. -/
def outName (p sfx : List Char) : List Char :=
  if containsSub p xmlPat then replaceXml sfx p else p ++ sfx

/-- Follows the words of claim C2: the suffix is appended, except when the
filename ends with ".xml", in which case only the trailing ".xml" is
substituted by the suffix.  Stated only to be compared with `outName`. -/
def outNameClaimC2 (p sfx : List Char) : List Char :=
  if 4 ≤ p.length ∧ List.drop (p.length - 4) p = xmlPat then
    List.take (p.length - 4) p ++ sfx
  else p ++ sfx

/-- The file-writing loop of `convert` (cli.py lines 123-129): each file
whose path contains the suffix is skipped, every other file produces one
output, written to `outName`.  The per-file converted contents are given by
the abstract function `conv` (chocomufin.funcs.convert_file followed by
`.dump()`, which is not part of the sources). -/
def convertOutputs (conv : Path × List Char → List Char) (sfx : List Char)
    (files : List (Path × List Char)) : List (Path × List Char) :=
  files.foldl
    (fun acc f =>
      if containsSub f.1 sfx then acc
      else acc ++ [(outName f.1 sfx, conv f)])
    []

/-! ## Helper lemmas about `containsSub`, `replaceXml` and `splitOnXml` -/

theorem containsSub_nil_pat (s : List Char) : containsSub s [] = true := by
  cases s with
  | nil => rfl
  | cons c rest => simp [containsSub]

theorem take_length_append (a b : List Char) :
    List.take a.length (a ++ b) = a := by
  induction a with
  | nil => rfl
  | cons c a ih => simp [List.take, ih]

theorem containsSub_append_left (a b : List Char) :
    containsSub (a ++ b) a = true := by
  cases a with
  | nil => exact containsSub_nil_pat b
  | cons c a' =>
    show containsSub ((c :: a') ++ b) (c :: a') = true
    rw [List.cons_append, containsSub]
    rw [show List.take (c :: a').length (c :: (a' ++ b)) = c :: a' from
      take_length_append (c :: a') b]
    simp

theorem containsSub_cons_of (c : Char) (s pat : List Char)
    (h : containsSub s pat = true) : containsSub (c :: s) pat = true := by
  rw [containsSub]
  split
  · rfl
  · exact h

theorem containsSub_cons4_xml (c a b d : Char) (r : List Char) :
    containsSub (c :: a :: b :: d :: r) xmlPat
      = if [c, a, b, d] = xmlPat then true
        else containsSub (a :: b :: d :: r) xmlPat := by
  rw [containsSub]
  have ht : List.take xmlPat.length (c :: a :: b :: d :: r) = [c, a, b, d] := by
    simp [xmlPat]
  rw [ht]

theorem containsSub_short_xml (s : List Char) (hs : s.length ≤ 3) :
    containsSub s xmlPat = false := by
  match s with
  | [] => rfl
  | c :: rest =>
    rw [containsSub]
    have hne : List.take xmlPat.length (c :: rest) ≠ xmlPat := by
      intro h
      have := congrArg List.length h
      simp [xmlPat] at this
      simp at hs
      omega
    rw [if_neg hne]
    exact containsSub_short_xml rest (by simp at hs; omega)

theorem splitOnXml_ne_nil (s : List Char) : splitOnXml s ≠ [] := by
  match s with
  | [] => simp [splitOnXml]
  | [c] => simp [splitOnXml]
  | [c, a] => simp [splitOnXml]
  | [c, a, b] => simp [splitOnXml]
  | c :: a :: b :: d :: r =>
    rw [splitOnXml]
    split
    · simp
    · cases hs : splitOnXml (a :: b :: d :: r) with
      | nil => simp
      | cons g gs => simp

theorem intercalateL_nil_cons (sep g : List Char) (gs : List (List Char)) :
    intercalateL sep ([] :: g :: gs) = sep ++ intercalateL sep (g :: gs) := by
  rw [intercalateL]
  simp

theorem intercalateL_cons_cons (sep : List Char) (c : Char) (g : List Char)
    (gs : List (List Char)) :
    intercalateL sep ((c :: g) :: gs) = c :: intercalateL sep (g :: gs) := by
  cases gs with
  | nil => rfl
  | cons g' gs' =>
    rw [intercalateL, intercalateL]
    simp

theorem replaceXml_eq_intercalate_splitOnXml (sfx : List Char) :
    ∀ n (s : List Char), s.length ≤ n →
      replaceXml sfx s = intercalateL sfx (splitOnXml s) := by
  intro n
  induction n with
  | zero =>
    intro s hs
    have : s = [] := List.length_eq_zero.mp (Nat.le_zero.mp hs)
    subst this
    rfl
  | succ n ih =>
    intro s hs
    match s with
    | [] => rfl
    | [c] => rfl
    | [c, a] => rfl
    | [c, a, b] => rfl
    | c :: a :: b :: d :: r =>
      rw [replaceXml, splitOnXml]
      by_cases h : [c, a, b, d] = xmlPat
      · rw [if_pos h, if_pos h]
        have hr : r.length ≤ n := by simp at hs; omega
        rw [ih r hr]
        obtain ⟨g, gs, hg⟩ : ∃ g gs, splitOnXml r = g :: gs := by
          cases hsp : splitOnXml r with
          | nil => exact absurd hsp (splitOnXml_ne_nil r)
          | cons g gs => exact ⟨g, gs, rfl⟩
        rw [hg, intercalateL_nil_cons]
      · rw [if_neg h, if_neg h]
        have hr : (a :: b :: d :: r).length ≤ n := by simp at hs ⊢; omega
        rw [ih (a :: b :: d :: r) hr]
        obtain ⟨g, gs, hg⟩ : ∃ g gs, splitOnXml (a :: b :: d :: r) = g :: gs := by
          cases hsp : splitOnXml (a :: b :: d :: r) with
          | nil => exact absurd hsp (splitOnXml_ne_nil _)
          | cons g gs => exact ⟨g, gs, rfl⟩
        rw [hg]
        simp only []
        rw [intercalateL_cons_cons]

theorem replaceXml_contains_sfx (sfx : List Char) :
    ∀ n (s : List Char), s.length ≤ n → containsSub s xmlPat = true →
      containsSub (replaceXml sfx s) sfx = true := by
  intro n
  induction n with
  | zero =>
    intro s hs hocc
    have : s = [] := List.length_eq_zero.mp (Nat.le_zero.mp hs)
    subst this
    simp [containsSub, xmlPat] at hocc
  | succ n ih =>
    intro s hs hocc
    match s with
    | [] => simp [containsSub, xmlPat] at hocc
    | [c] => rw [containsSub_short_xml [c] (by simp)] at hocc; exact absurd hocc (by simp)
    | [c, a] => rw [containsSub_short_xml [c, a] (by simp)] at hocc; exact absurd hocc (by simp)
    | [c, a, b] => rw [containsSub_short_xml [c, a, b] (by simp)] at hocc; exact absurd hocc (by simp)
    | c :: a :: b :: d :: r =>
      rw [replaceXml]
      by_cases h : [c, a, b, d] = xmlPat
      · rw [if_pos h]
        exact containsSub_append_left sfx (replaceXml sfx r)
      · rw [if_neg h]
        rw [containsSub_cons4_xml, if_neg h] at hocc
        have hr : (a :: b :: d :: r).length ≤ n := by simp at hs ⊢; omega
        exact containsSub_cons_of c _ sfx (ih (a :: b :: d :: r) hr hocc)

theorem convertOutputs_foldl_acc (conv : Path × List Char → List Char)
    (sfx : List Char) (files : List (Path × List Char)) :
    ∀ acc : List (Path × List Char),
      files.foldl
        (fun acc f =>
          if containsSub f.1 sfx then acc
          else acc ++ [(outName f.1 sfx, conv f)])
        acc
      = acc ++ (files.filter (fun f => !containsSub f.1 sfx)).map
          (fun f => (outName f.1 sfx, conv f)) := by
  induction files with
  | nil => intro acc; simp
  | cons f rest ih =>
    intro acc
    rw [List.foldl_cons]
    by_cases h : containsSub f.1 sfx
    · rw [if_pos h, ih acc, List.filter_cons]
      simp [h]
    · rw [if_neg h, ih, List.filter_cons]
      simp [h]

theorem containsSub_append_right (p sfx : List Char) :
    containsSub (p ++ sfx) sfx = true := by
  induction p with
  | nil =>
    have := containsSub_append_left sfx []
    simpa using this
  | cons c p ih => exact containsSub_cons_of c (p ++ sfx) sfx ih

/-! ## Claim C2 -/

/-- Counterexample to claim C2 as stated: for the input filename "a.xmlb"
(which contains ".xml" but does not end with it), `convert` replaces the
inner ".xml" occurrence with the suffix, while the claim says the suffix is
simply appended because the name does not end in ".xml". -/
theorem convert_name_claim_cex :
    outName "a.xmlb".toList ".mufichecker.xml".toList
      ≠ outNameClaimC2 "a.xmlb".toList ".mufichecker.xml".toList := by
  decide

/-- Claim C2, corrected: the output filename is the input filename with the
suffix appended when the name does not contain ".xml"; when it does contain
".xml" (anywhere, not only at the end), every non-overlapping occurrence of
".xml", scanning left to right, is substituted by the suffix. -/
theorem convert_output_name_characterization (p sfx : List Char) :
    outName p sfx
      = if containsSub p xmlPat then intercalateL sfx (splitOnXml p)
        else p ++ sfx := by
  unfold outName
  by_cases h : containsSub p xmlPat = true
  · rw [if_pos h, if_pos h,
      replaceXml_eq_intercalate_splitOnXml sfx p.length p le_rfl]
  · rw [if_neg h, if_neg h]

/-! ## Claim C5 -/

/-- Counterexample to claim C5 as stated: a list with one input file whose
name contains the suffix produces zero output files, not one. -/
theorem convert_skipped_file_cex :
    (convertOutputs (fun f => f.2) ".mufichecker.xml".toList
        [("doc.mufichecker.xml".toList, ['a'])]).length = 0
    ∧ ([("doc.mufichecker.xml".toList, ['a'])] : List (Path × List Char)).length
        = 1 := by
  constructor
  · decide
  · rfl

/-- Claim C5, corrected: `convert` writes exactly one output file per input
file whose name does not contain the suffix; input files whose name contains
the suffix are skipped and produce no output. -/
theorem convert_outputs_characterization (conv : Path × List Char → List Char)
    (sfx : List Char) (files : List (Path × List Char)) :
    convertOutputs conv sfx files
      = (files.filter (fun f => !containsSub f.1 sfx)).map
          (fun f => (outName f.1 sfx, conv f))
    ∧ (convertOutputs conv sfx files).length
      = (files.filter (fun f => !containsSub f.1 sfx)).length := by
  have h := convertOutputs_foldl_acc conv sfx files []
  rw [List.nil_append] at h
  refine ⟨h, ?_⟩
  rw [show convertOutputs conv sfx files
      = files.foldl
          (fun acc f =>
            if containsSub f.1 sfx then acc
            else acc ++ [(outName f.1 sfx, conv f)])
          [] from rfl, h]
  exact List.length_map _ _

/-! ## Claim C10 -/

/-- Counterexample to claim C10 as stated: with the default suffix, the
output written for the input "a.xml" is named "a.mufichecker.xml", which can
itself be an input file of the same run (where it is skipped but then
overwritten), so `convert` can overwrite an input file. -/
theorem convert_overwrites_other_input_cex :
    "a.mufichecker.xml".toList
      ∈ (convertOutputs (fun f => f.2) ".mufichecker.xml".toList
          [("a.xml".toList, ['x']), ("a.mufichecker.xml".toList, ['y'])]).map
            Prod.fst
    ∧ "a.mufichecker.xml".toList
      ∈ ([("a.xml".toList, ['x']),
          ("a.mufichecker.xml".toList, ['y'])] : List (Path × List Char)).map
            Prod.fst := by
  constructor
  · decide
  · decide

/-- Claim C10, corrected: `convert` never overwrites the file it is
converting: every file whose name contains the suffix is skipped (the run
produces no output derived from it), and every output filename contains the
suffix and differs from the filename of the input it was produced from (so
outputs are never re-converted by a later run with the same suffix).  An
output may, however, coincide with a different listed input file whose name
contains the suffix, as the counterexample shows. -/
theorem convert_no_self_overwrite (conv : Path × List Char → List Char)
    (sfx : List Char) (files : List (Path × List Char)) (p : Path)
    (hp : containsSub p sfx = false) :
    (containsSub (outName p sfx) sfx = true ∧ outName p sfx ≠ p)
    ∧ convertOutputs conv sfx files
      = convertOutputs conv sfx
          (files.filter (fun f => !containsSub f.1 sfx)) := by
  refine ⟨⟨?_, ?_⟩, ?_⟩
  · unfold outName
    by_cases hx : containsSub p xmlPat = true
    · rw [if_pos hx]
      exact replaceXml_contains_sfx sfx p.length p le_rfl hx
    · rw [if_neg hx]
      exact containsSub_append_right p sfx
  · intro heq
    have : containsSub p sfx = true := by
      rw [← heq]
      unfold outName
      by_cases hx : containsSub p xmlPat = true
      · rw [if_pos hx]
        exact replaceXml_contains_sfx sfx p.length p le_rfl hx
      · rw [if_neg hx]
        exact containsSub_append_right p sfx
    rw [hp] at this
    exact absurd this (by simp)
  · rw [show convertOutputs conv sfx files
        = files.foldl
            (fun acc f =>
              if containsSub f.1 sfx then acc
              else acc ++ [(outName f.1 sfx, conv f)])
            [] from rfl,
      convertOutputs_foldl_acc conv sfx files [],
      show convertOutputs conv sfx (files.filter (fun f => !containsSub f.1 sfx))
        = (files.filter (fun f => !containsSub f.1 sfx)).foldl
            (fun acc f =>
              if containsSub f.1 sfx then acc
              else acc ++ [(outName f.1 sfx, conv f)])
            [] from rfl,
      convertOutputs_foldl_acc conv sfx _ [],
      List.filter_filter]
    simp

/-- Witness for `convert_no_self_overwrite` at a concrete input. -/
theorem convert_no_self_overwrite_witness :
    (containsSub (outName "doc.xml".toList ".mufichecker.xml".toList)
        ".mufichecker.xml".toList = true
      ∧ outName "doc.xml".toList ".mufichecker.xml".toList ≠ "doc.xml".toList)
    ∧ convertOutputs (fun f => f.2) ".mufichecker.xml".toList
        [("a.xml".toList, ['x'])]
      = convertOutputs (fun f => f.2) ".mufichecker.xml".toList
          ([("a.xml".toList, ['x'])].filter
            (fun f => !containsSub f.1 ".mufichecker.xml".toList)) :=
  convert_no_self_overwrite (fun f => f.2) ".mufichecker.xml".toList
    [("a.xml".toList, ['x'])] "doc.xml".toList (by decide)

/-! ## The control command (cli.py lines 45-100) -/

/-- Deduplication keeping the first occurrence of each character, given the
characters already seen. -/
def firstSeenAux (seen : List Char) : List Char → List Char
  | [] => []
  | c :: rest =>
    if c ∈ seen then firstSeenAux seen rest
    else c :: firstSeenAux (c :: seen) rest

/-- Modelled from the spec: `check_file` from chocomufin.funcs is not in
the sources.  Per the spec (section 8, checker completeness, and section
4.2) it returns exactly the set of characters of the normalized document
text that are absent from the table's keys, misses accumulated in
first-seen order.  `norm` is the (abstract) normalization applied to the
document text. -/
def check_file (norm : List Char → List Char) (keys : List Char)
    (content : List Char) : List Char :=
  firstSeenAux [] ((norm content).filter (fun c => decide (c ∉ keys)))

/-- Python `hex(ord(c))`: modelled from the spec for
chocomufin.funcs.get_hex (not in the sources), which renders the
hexadecimal codepoint of a character; identical to the local
`hex_for_string` helper of cli.py line 167. -/
def get_hex (c : Char) : List Char :=
  '0' :: 'x' :: Nat.toDigits 16 c.toNat

/-- Python `char.strip()` on a single character (cli.py line 78): a
whitespace character strips to the empty string. -/
def stripChar (c : Char) : List Char :=
  if c.isWhitespace then [] else [c]

/-- The `errors` mapping of `control` (cli.py line 56): a defaultdict from
an unknown character to the files it was found in, embedded as an
insertion-ordered association list. -/
abbrev Errors := List (Char × List Path)

/-- `errors[char].append(file)` on the defaultdict: append to the entry of
`c` when present, otherwise create the entry `(c, [p])` at the end. -/
def addError (e : Errors) (c : Char) (p : Path) : Errors :=
  if e.any (fun q => q.1 == c) then
    e.map (fun q => if q.1 == c then (q.1, q.2 ++ [p]) else q)
  else e ++ [(c, [p])]

/-- Lookup of a character's file list in the errors mapping. -/
def lookupErr (e : Errors) (c : Char) : Option (List Path) :=
  (e.find? (fun q => q.1 == c)).map Prod.snd

/-- The file loop of `control` (cli.py lines 60-72): files whose path
contains the ignore string are skipped; for every other file each character
reported by `check_file` is recorded against that file. -/
def controlErrors (norm : List Char → List Char) (keys : List Char)
    (ignore : Path) (files : List (Path × List Char)) : Errors :=
  files.foldl
    (fun e f =>
      if containsSub f.1 ignore then e
      else (check_file norm keys f.2).foldl (fun e2 c => addError e2 c f.1) e)
    []

/-- The report rows built by `control` (cli.py lines 75-85), without the
header row: for each unknown character a row (stripped character, hex
representation, display name, first file), followed by one continuation row
per additional file.  `charName` abstracts
chocomufin.funcs.get_character_name, which is not in the sources. -/
def reportRows (charName : Char → List Char) (e : Errors) :
    List (List Char × List Char × List Char × Path) :=
  e.foldl
    (fun acc q =>
      (acc ++ [(stripChar q.1, get_hex q.1, charName q.1, q.2.headD [])])
        ++ (if q.2.length > 1 then (q.2.drop 1).map (fun f => ([], [], [], f))
            else []))
    []

/-- Outcome of `control` (cli.py lines 87-100): the exit code, whether the
"No new characters found" message is printed, and the printed report rows.
The branch condition `1 + rows.length > 1` is Python's
`len(table) > 1` with the header row included. -/
def controlResult (norm : List Char → List Char) (charName : Char → List Char)
    (keys : List Char) (ignore : Path) (files : List (Path × List Char)) :
    Nat × Bool × List (List Char × List Char × List Char × Path) :=
  let rows := reportRows charName (controlErrors norm keys ignore files)
  if 1 + rows.length > 1 then (1, false, rows) else (0, true, rows)

/-- The file paths, in processing order, of the non-ignored files whose
check reports the character `c` as unknown. -/
def filesReporting (norm : List Char → List Char) (keys : List Char)
    (ignore : Path) (files : List (Path × List Char)) (c : Char) : List Path :=
  (files.filter
      (fun f => !containsSub f.1 ignore
        && decide (c ∈ check_file norm keys f.2))).map
    Prod.fst

/-! ## Helper lemmas about `firstSeenAux` and `check_file` -/

theorem firstSeenAux_eq_nil (seen : List Char) (l : List Char) :
    firstSeenAux seen l = [] ↔ ∀ c ∈ l, c ∈ seen := by
  induction l generalizing seen with
  | nil => simp [firstSeenAux]
  | cons c rest ih =>
    rw [firstSeenAux]
    by_cases h : c ∈ seen
    · rw [if_pos h, ih]
      simp [h]
    · rw [if_neg h]
      simp [h]

theorem firstSeenAux_mem (l : List Char) (x : Char) :
    ∀ seen : List Char, x ∈ firstSeenAux seen l ↔ x ∈ l ∧ x ∉ seen := by
  induction l with
  | nil => intro seen; simp [firstSeenAux]
  | cons c rest ih =>
    intro seen
    rw [firstSeenAux]
    by_cases h : c ∈ seen
    · rw [if_pos h, ih seen]
      constructor
      · rintro ⟨hx, hs⟩
        exact ⟨List.mem_cons_of_mem c hx, hs⟩
      · rintro ⟨hx, hs⟩
        rcases List.mem_cons.mp hx with rfl | hx
        · exact absurd h hs
        · exact ⟨hx, hs⟩
    · rw [if_neg h]
      simp only [List.mem_cons]
      constructor
      · rintro (rfl | hfs)
        · exact ⟨Or.inl rfl, h⟩
        · have hr := (ih (c :: seen)).mp hfs
          refine ⟨Or.inr hr.1, ?_⟩
          intro hxs
          exact hr.2 (List.mem_cons_of_mem c hxs)
      · rintro ⟨hx, hs⟩
        by_cases hxc : x = c
        · exact Or.inl hxc
        · rcases hx with rfl | hx
          · exact Or.inl rfl
          · exact Or.inr ((ih (c :: seen)).mpr ⟨hx, by simp [hxc, hs]⟩)

theorem firstSeenAux_nodup (seen l : List Char) :
    (firstSeenAux seen l).Nodup := by
  induction l generalizing seen with
  | nil => simp [firstSeenAux]
  | cons c rest ih =>
    rw [firstSeenAux]
    by_cases h : c ∈ seen
    · rw [if_pos h]
      exact ih seen
    · rw [if_neg h]
      refine List.nodup_cons.mpr ⟨?_, ih (c :: seen)⟩
      intro hc
      exact ((firstSeenAux_mem rest c (c :: seen)).mp hc).2 (List.mem_cons_self c seen)

theorem check_file_eq_nil_iff (norm : List Char → List Char)
    (keys content : List Char) :
    check_file norm keys content = [] ↔ ∀ c ∈ norm content, c ∈ keys := by
  unfold check_file
  rw [firstSeenAux_eq_nil]
  constructor
  · intro h c hc
    by_contra hk
    exact absurd (h c (List.mem_filter.mpr ⟨hc, by simpa using hk⟩))
      (List.not_mem_nil c)
  · intro h c hc
    exfalso
    have := (List.mem_filter.mp hc)
    exact absurd (h c this.1) (by simpa using this.2)

theorem check_file_nodup (norm : List Char → List Char)
    (keys content : List Char) : (check_file norm keys content).Nodup :=
  firstSeenAux_nodup [] _

/-! ## Helper lemmas about `addError` and `lookupErr` -/

theorem addError_ne_nil (e : Errors) (c : Char) (p : Path) :
    addError e c p ≠ [] := by
  unfold addError
  split
  · rename_i h
    cases e with
    | nil => simp at h
    | cons q e' => simp
  · simp

theorem comp_upd_eq_pred (c c' : Char) (p : Path) :
    ((fun q : Char × List Path => q.1 == c)
        ∘ fun q => if q.1 == c' then (q.1, q.2 ++ [p]) else q)
      = fun q : Char × List Path => q.1 == c := by
  funext q
  by_cases h : (q.1 == c') = true
  · simp [Function.comp, h]
  · simp [Function.comp, h]

theorem find?_map_upd (e : Errors) (c : Char) (p : Path) :
    (e.map (fun q => if q.1 == c then (q.1, q.2 ++ [p]) else q)).find?
        (fun q => q.1 == c)
      = (e.find? (fun q => q.1 == c)).map (fun q => (q.1, q.2 ++ [p])) := by
  rw [List.find?_map, comp_upd_eq_pred c c p]
  cases hf : e.find? (fun q => q.1 == c) with
  | none => rfl
  | some q =>
    have hq := List.find?_some hf
    simp only [Option.map_some']
    rw [if_pos hq]

theorem find?_map_upd_ne (e : Errors) (c c' : Char) (p : Path)
    (hcc : c ≠ c') :
    (e.map (fun q => if q.1 == c' then (q.1, q.2 ++ [p]) else q)).find?
        (fun q => q.1 == c)
      = e.find? (fun q => q.1 == c) := by
  rw [List.find?_map, comp_upd_eq_pred c c' p]
  cases hf : e.find? (fun q => q.1 == c) with
  | none => rfl
  | some q =>
    have hq := List.find?_some hf
    have hq1 : q.1 = c := by simpa using hq
    have hq' : ¬((q.1 == c') = true) := by
      simp [hq1]
      exact hcc
    simp only [Option.map_some']
    rw [if_neg hq']

theorem find?_append_single_ne (e : Errors) (x : Char × List Path) (c : Char)
    (hx : ¬x.1 = c) :
    (e ++ [x]).find? (fun q => q.1 == c) = e.find? (fun q => q.1 == c) := by
  rw [List.find?_append]
  have hsingle : ([x] : Errors).find? (fun q => q.1 == c) = none := by
    simp [List.find?_eq_none, hx]
  rw [hsingle, Option.or_none]

theorem find?_append_single_self (e : Errors) (c : Char) (p : Path)
    (hf : e.find? (fun q => q.1 == c) = none) :
    (e ++ [(c, [p])]).find? (fun q => q.1 == c) = some (c, [p]) := by
  rw [List.find?_append, hf, Option.none_or]
  simp [List.find?]

theorem lookupErr_addError_self (e : Errors) (c : Char) (p : Path) :
    lookupErr (addError e c p) c
      = some (((lookupErr e c).getD []) ++ [p]) := by
  unfold addError
  by_cases h : e.any (fun q => q.1 == c)
  · rw [if_pos h]
    unfold lookupErr
    rw [find?_map_upd]
    cases hf : e.find? (fun q => q.1 == c) with
    | none =>
      exfalso
      rw [List.find?_eq_none] at hf
      rcases List.any_eq_true.mp h with ⟨q, hq, hqc⟩
      exact hf q hq hqc
    | some q => simp
  · rw [if_neg h]
    unfold lookupErr
    have hf : e.find? (fun q => q.1 == c) = none := by
      rw [List.find?_eq_none]
      intro q hq hqc
      exact h (List.any_eq_true.mpr ⟨q, hq, hqc⟩)
    rw [find?_append_single_self e c p hf, hf]
    simp

theorem lookupErr_addError_other (e : Errors) (c c' : Char) (p : Path)
    (hcc : c ≠ c') :
    lookupErr (addError e c' p) c = lookupErr e c := by
  unfold addError lookupErr
  by_cases h : e.any (fun q => q.1 == c')
  · rw [if_pos h, find?_map_upd_ne e c c' p hcc]
  · rw [if_neg h, find?_append_single_ne e (c', [p]) c
      (fun hh => hcc hh.symm)]

theorem lookupErr_foldAdd (p : Path) :
    ∀ cs : List Char, cs.Nodup → ∀ (e : Errors) (c : Char),
      lookupErr (cs.foldl (fun e2 c2 => addError e2 c2 p) e) c
        = if c ∈ cs then some (((lookupErr e c).getD []) ++ [p])
          else lookupErr e c := by
  intro cs
  induction cs with
  | nil =>
    intro _ e c
    simp
  | cons c' cs ih =>
    intro hnd e c
    have hnd' := (List.nodup_cons.mp hnd).2
    have hc' := (List.nodup_cons.mp hnd).1
    rw [List.foldl_cons, ih hnd']
    by_cases hcc : c = c'
    · subst hcc
      rw [if_neg hc', if_pos (List.mem_cons_self c cs),
        lookupErr_addError_self]
    · have hmem : c ∈ c' :: cs ↔ c ∈ cs := by
        simp [List.mem_cons, hcc]
      rw [lookupErr_addError_other e c c' p hcc]
      by_cases hm : c ∈ cs
      · rw [if_pos hm, if_pos (hmem.mpr hm)]
      · rw [if_neg hm, if_neg (fun hh => hm (hmem.mp hh))]

theorem lookupErr_nil (c : Char) : lookupErr [] c = none := rfl

theorem lookupErr_control_foldl (norm : List Char → List Char)
    (keys : List Char) (ignore : Path) :
    ∀ (files : List (Path × List Char)) (e : Errors) (c : Char),
      lookupErr
        (files.foldl
          (fun e2 f =>
            if containsSub f.1 ignore then e2
            else (check_file norm keys f.2).foldl
              (fun e3 c2 => addError e3 c2 f.1) e2)
          e) c
      = if lookupErr e c = none ∧ filesReporting norm keys ignore files c = []
        then none
        else some (((lookupErr e c).getD [])
          ++ filesReporting norm keys ignore files c) := by
  intro files
  induction files with
  | nil =>
    intro e c
    cases h : lookupErr e c with
    | none => simp [filesReporting, h]
    | some v => simp [filesReporting, h]
  | cons f rest ih =>
    intro e c
    rw [List.foldl_cons]
    by_cases hig : containsSub f.1 ignore
    · rw [if_pos hig, ih]
      have hfr : filesReporting norm keys ignore (f :: rest) c
          = filesReporting norm keys ignore rest c := by
        unfold filesReporting
        rw [List.filter_cons]
        simp [hig]
      rw [hfr]
    · rw [if_neg hig, ih,
        lookupErr_foldAdd f.1 _ (check_file_nodup norm keys f.2)]
      have hfr : filesReporting norm keys ignore (f :: rest) c
          = if c ∈ check_file norm keys f.2
            then f.1 :: filesReporting norm keys ignore rest c
            else filesReporting norm keys ignore rest c := by
        unfold filesReporting
        rw [List.filter_cons]
        by_cases hc : c ∈ check_file norm keys f.2
        · simp [hig, hc]
        · simp [hig, hc]
      rw [hfr]
      by_cases hc : c ∈ check_file norm keys f.2
      · rw [if_pos hc, if_pos hc]
        cases h : lookupErr e c with
        | none => simp [h]
        | some v => simp [h]
      · rw [if_neg hc, if_neg hc]

theorem foldAdd_eq_nil_iff (p : Path) :
    ∀ (cs : List Char) (e : Errors),
      (cs.foldl (fun e2 c2 => addError e2 c2 p) e = []) ↔ (e = [] ∧ cs = []) := by
  intro cs
  induction cs with
  | nil => intro e; simp
  | cons c cs ih =>
    intro e
    rw [List.foldl_cons, ih]
    simp [addError_ne_nil]

theorem control_foldl_eq_nil_iff (norm : List Char → List Char)
    (keys : List Char) (ignore : Path) :
    ∀ (files : List (Path × List Char)) (e : Errors),
      (files.foldl
          (fun e2 f =>
            if containsSub f.1 ignore then e2
            else (check_file norm keys f.2).foldl
              (fun e3 c2 => addError e3 c2 f.1) e2)
          e = [])
      ↔ (e = [] ∧ ∀ f ∈ files,
          containsSub f.1 ignore = true ∨ check_file norm keys f.2 = []) := by
  intro files
  induction files with
  | nil => intro e; simp
  | cons f rest ih =>
    intro e
    rw [List.foldl_cons]
    by_cases hig : containsSub f.1 ignore
    · rw [if_pos hig, ih]
      simp [hig]
    · rw [if_neg hig, ih, foldAdd_eq_nil_iff]
      simp only [List.mem_cons, hig]
      constructor
      · rintro ⟨⟨he, hchk⟩, hrest⟩
        refine ⟨he, ?_⟩
        rintro g (rfl | hg)
        · exact Or.inr hchk
        · exact hrest g hg
      · rintro ⟨he, hall⟩
        refine ⟨⟨he, ?_⟩, ?_⟩
        · rcases hall f (Or.inl rfl) with hskip | hchk
          · exact absurd hskip (by simp [hig])
          · exact hchk
        · intro g hg
          exact hall g (Or.inr hg)

theorem foldl_append_eq_bind {α β : Type} (h : α → List β) :
    ∀ (l : List α) (acc : List β),
      l.foldl (fun a q => a ++ h q) acc = acc ++ l.flatMap h := by
  intro l
  induction l with
  | nil => intro acc; simp
  | cons q l ih =>
    intro acc
    rw [List.foldl_cons, ih]
    simp

theorem reportRows_eq_bind (charName : Char → List Char) (e : Errors) :
    reportRows charName e
      = e.flatMap (fun q =>
          (stripChar q.1, get_hex q.1, charName q.1, q.2.headD [])
            :: (q.2.drop 1).map (fun f => ([], [], [], f))) := by
  unfold reportRows
  have hbody : (fun (acc : List (List Char × List Char × List Char × Path)) q =>
      (acc ++ [(stripChar q.1, get_hex q.1, charName q.1, q.2.headD [])])
        ++ (if q.2.length > 1 then (q.2.drop 1).map (fun f => ([], [], [], f))
            else []))
      = fun acc (q : Char × List Path) =>
          acc ++ ((stripChar q.1, get_hex q.1, charName q.1, q.2.headD [])
            :: (q.2.drop 1).map (fun f => ([], [], [], f))) := by
    funext acc q
    by_cases h : q.2.length > 1
    · rw [if_pos h]
      simp
    · rw [if_neg h]
      have hd : q.2.drop 1 = [] := List.drop_eq_nil_of_le (by omega)
      simp [hd]
  rw [hbody, foldl_append_eq_bind]
  simp

theorem reportRows_eq_nil_iff (charName : Char → List Char) (e : Errors) :
    reportRows charName e = [] ↔ e = [] := by
  rw [reportRows_eq_bind]
  constructor
  · intro h
    cases e with
    | nil => rfl
    | cons q e' => simp at h
  · intro h
    subst h
    rfl

/-! ## Claim C1 -/

/-- Counterexample to claim C1 as stated: a run whose only file has a path
containing the (default) ignore string ".mufichecker.xml" and contains the
character b, absent from the table; since the file is skipped, `control`
exits 0, while the claim requires exit code 1. -/
theorem control_ignored_file_cex :
    'b' ∈ (("out.mufichecker.xml".toList, ['b']) : Path × List Char).2
    ∧ 'b' ∉ (['a'] : List Char)
    ∧ (controlResult (fun s => s) (fun _ => []) ['a']
        ".mufichecker.xml".toList
        [("out.mufichecker.xml".toList, ['b'])]).1 = 0 := by
  refine ⟨by decide, by decide, ?_⟩
  decide

/-- Claim C1, corrected: `control` exits 0 and prints "No new characters
found" exactly when every character of the normalized text of every file
whose path does not contain the ignore string is in the table; otherwise it
exits 1 and prints the (non-empty) report table.  Files whose path contains
the ignore string are skipped and cannot influence the outcome. -/
theorem control_exit_code_iff (norm : List Char → List Char)
    (charName : Char → List Char) (keys : List Char) (ignore : Path)
    (files : List (Path × List Char)) :
    (((controlResult norm charName keys ignore files).1 = 0
        ∧ (controlResult norm charName keys ignore files).2.1 = true)
      ↔ ∀ f ∈ files, containsSub f.1 ignore = false →
          ∀ c ∈ norm f.2, c ∈ keys)
    ∧ (((controlResult norm charName keys ignore files).1 = 1
        ∧ (controlResult norm charName keys ignore files).2.2 ≠ [])
      ↔ ¬ ∀ f ∈ files, containsSub f.1 ignore = false →
          ∀ c ∈ norm f.2, c ∈ keys) := by
  have hkey : (controlErrors norm keys ignore files = [])
      ↔ ∀ f ∈ files, containsSub f.1 ignore = false →
          ∀ c ∈ norm f.2, c ∈ keys := by
    unfold controlErrors
    rw [control_foldl_eq_nil_iff]
    constructor
    · rintro ⟨_, h⟩ f hf hig
      rcases h f hf with hskip | hchk
      · rw [hig] at hskip
        exact absurd hskip (by simp)
      · exact fun c hc => (check_file_eq_nil_iff norm keys f.2).mp hchk c hc
    · intro h
      refine ⟨rfl, ?_⟩
      intro f hf
      by_cases hig : containsSub f.1 ignore = true
      · exact Or.inl hig
      · have hfalse : containsSub f.1 ignore = false := by
          revert hig
          cases containsSub f.1 ignore <;> simp
        exact Or.inr ((check_file_eq_nil_iff norm keys f.2).mpr (h f hf hfalse))
  have hrows : (reportRows charName (controlErrors norm keys ignore files) = [])
      ↔ ∀ f ∈ files, containsSub f.1 ignore = false →
          ∀ c ∈ norm f.2, c ∈ keys := by
    rw [reportRows_eq_nil_iff, hkey]
  by_cases hr : reportRows charName (controlErrors norm keys ignore files) = []
  · have hres : controlResult norm charName keys ignore files = (0, true, []) := by
      unfold controlResult
      rw [hr]
      simp
    rw [hres]
    constructor
    · exact iff_of_true ⟨rfl, rfl⟩ (hrows.mp hr)
    · refine iff_of_false ?_ ?_
      · rintro ⟨h01, _⟩
        cases h01
      · intro hn
        exact hn (hrows.mp hr)
  · have hres : controlResult norm charName keys ignore files
        = (1, false, reportRows charName (controlErrors norm keys ignore files)) := by
      unfold controlResult
      rw [if_pos]
      have : 0 < (reportRows charName (controlErrors norm keys ignore files)).length :=
        List.length_pos.mpr hr
      omega
    rw [hres]
    constructor
    · refine iff_of_false ?_ ?_
      · rintro ⟨h10, _⟩
        cases h10
      · intro hall
        exact hr (hrows.mpr hall)
    · exact iff_of_true ⟨rfl, hr⟩ (fun hall => hr (hrows.mpr hall))

/-- Witness for `control_exit_code_iff` at a concrete input: a single
non-ignored file whose only character is in the table. -/
theorem control_exit_code_iff_witness :
    (controlResult (fun s => s) (fun _ => []) ['a'] ".mufichecker.xml".toList
        [("doc.xml".toList, ['a'])]).1 = 0
    ∧ (controlResult (fun s => s) (fun _ => []) ['a'] ".mufichecker.xml".toList
        [("doc.xml".toList, ['a'])]).2.1 = true :=
  (control_exit_code_iff (fun s => s) (fun _ => []) ['a']
    ".mufichecker.xml".toList [("doc.xml".toList, ['a'])]).1.mpr (by decide)

/-! ## Claim C6 -/

/-- Claim C6, confirmed: the unknown-character report of `control` maps
each unknown character to the list of all (non-ignored) file paths in which
it was found, in processing order, and renders each character as one row
carrying the first file followed by one continuation row per additional
file. -/
theorem control_report_structure (norm : List Char → List Char)
    (charName : Char → List Char) (keys : List Char) (ignore : Path)
    (files : List (Path × List Char)) :
    (∀ c : Char,
      lookupErr (controlErrors norm keys ignore files) c
        = if filesReporting norm keys ignore files c = [] then none
          else some (filesReporting norm keys ignore files c))
    ∧ reportRows charName (controlErrors norm keys ignore files)
      = (controlErrors norm keys ignore files).flatMap
          (fun q =>
            (stripChar q.1, get_hex q.1, charName q.1, q.2.headD [])
              :: (q.2.drop 1).map (fun f => ([], [], [], f))) := by
  constructor
  · intro c
    unfold controlErrors
    rw [lookupErr_control_foldl, lookupErr_nil]
    by_cases ha : filesReporting norm keys ignore files c = []
    · rw [if_pos ⟨rfl, ha⟩, if_pos ha]
    · rw [if_neg (fun hh => ha hh.2), if_neg ha]
      simp
  · exact reportRows_eq_bind charName _

/-! ## Claim C3: the get-hex command (cli.py lines 161-175) -/

/-- The rows printed by the get-hex command (cli.py lines 166-175): the
normalized characters, each prefixed by a space as in the f-string of line
170, are zipped with the hexadecimal codepoints of the characters of the
ORIGINAL (un-normalized) argument string; zip truncates to the shorter
list. -/
def inspectRows (norm : List Char → List Char) (s : List Char) :
    List (List Char × List Char) :=
  List.zip ((norm s).map (fun c => [' ', c])) (s.map (fun c => get_hex c))

/-- Follows the words of claim C3 and the spec (section 4.5): row i pairs
the i-th post-normalization character with the hexadecimal codepoint of
that same post-normalization character. -/
def inspectRowsClaimC3 (norm : List Char → List Char) (s : List Char) :
    List (Char × List Char) :=
  (norm s).map (fun c => (c, get_hex c))

/-- Modelled from the spec: the normalization scheme (Python unicodedata,
external to the repository), evaluated at the single failing input.  NFC
composes the two-codepoint sequence e, U+0301 (combining acute) into the
single character U+00E9; every other string is left unchanged here. -/
def nfcOnCex : List Char → List Char :=
  fun s => if s = ['e', Char.ofNat 0x301] then ['é'] else s

/-- Claim C3 is right and the code is wrong (code bug): on the decomposed
input e, U+0301, the command pairs the composed character é with the
codepoint 0x65 of the first ORIGINAL character (and drops 0x301 by zip
truncation), instead of pairing é with its own codepoint 0xe9 as the claim
and the spec require. -/
theorem inspect_hex_mismatch :
    inspectRows nfcOnCex ['e', Char.ofNat 0x301]
      = [([' ', 'é'], ['0', 'x', '6', '5'])]
    ∧ inspectRowsClaimC3 nfcOnCex ['e', Char.ofNat 0x301]
      = [('é', ['0', 'x', 'e', '9'])]
    ∧ (['0', 'x', '6', '5'] : List Char) ≠ ['0', 'x', 'e', '9'] := by
  refine ⟨?_, ?_, by decide⟩
  · decide
  · decide

/-! ## Claim C4: the default normalization scheme (cli.py lines 32-42) -/

/-- cli.py line 34: the norm click option (flags -n, --norm) is declared with
default=None, so click always supplies a value for norm. -/
def clickNormDefault : Option String := none

/-- The Python signature default of main (cli.py line 36), which is never
used because click always passes the option's value. -/
def signatureNormDefault : String := "NFC"

/-- main (cli.py lines 36-42): ctx.obj stores the click-resolved value of
the norm option — the command-line value when one was given, otherwise the
click default. -/
def ctxUnorm (cmdline : Option String) : Option String :=
  match cmdline with
  | some v => some v
  | none => clickNormDefault

/-- Claim C4 is right about the intent and the code is wrong (code bug):
when no normalization scheme is supplied on the command line, the value
threaded through every operation is None, not "NFC"; the code's own
signature default "NFC" (cli.py line 36) is dead because the click option
default None (line 34) always wins. -/
theorem default_norm_is_none :
    ctxUnorm none = none ∧ ctxUnorm none ≠ some signatureNormDefault := by
  constructor
  · rfl
  · decide

/-! ## Claim C7: fatal errors abort the run (cli.py lines 60-72, 123-129) -/

/-- The fatal error taxonomy of the spec (section 7). -/
inductive CMError where
  | tableFormat
  | unsupportedDoc
  | fileNotFound
deriving DecidableEq

/-- The control loop with a fallible per-file check: Python exceptions are
embedded as Except values of the abstract `checkE`.  On the first error the
loop stops; the errors accumulated so far are returned together with the
exception (the report of cli.py lines 75-100 is then never rendered, since
the exception propagates out of `control`). -/
def controlRunWAux (checkE : Path × List Char → Except CMError (List Char))
    (ignore : Path) (e : Errors) :
    List (Path × List Char) → Errors × Option CMError
  | [] => (e, none)
  | f :: rest =>
    if containsSub f.1 ignore then controlRunWAux checkE ignore e rest
    else
      match checkE f with
      | .error err => (e, some err)
      | .ok cs =>
        controlRunWAux checkE ignore
          (cs.foldl (fun e2 c => addError e2 c f.1) e) rest

/-- The control loop started from the empty errors mapping. -/
def controlRunW (checkE : Path × List Char → Except CMError (List Char))
    (ignore : Path) (files : List (Path × List Char)) :
    Errors × Option CMError :=
  controlRunWAux checkE ignore [] files

/-- The convert loop with a fallible per-file conversion (`convE` embeds
chocomufin.funcs.convert_file): outputs written before the exception
remain, the failing file produces no output, and no later file is
processed. -/
def convertRunW (convE : Path × List Char → Except CMError (List Char))
    (sfx : Path) :
    List (Path × List Char) → List (Path × List Char) × Option CMError
  | [] => ([], none)
  | f :: rest =>
    if containsSub f.1 sfx then convertRunW convE sfx rest
    else
      match convE f with
      | .error err => ([], some err)
      | .ok out =>
        ((outName f.1 sfx, out) :: (convertRunW convE sfx rest).1,
          (convertRunW convE sfx rest).2)

theorem controlRunWAux_fail
    (checkE : Path × List Char → Except CMError (List Char)) (ignore : Path)
    (f : Path × List Char) (err : CMError)
    (hfi : containsSub f.1 ignore = false) (hce : checkE f = .error err) :
    ∀ pre : List (Path × List Char),
      (∀ g ∈ pre, ∃ out, checkE g = .ok out) →
      ∀ (e : Errors) (post : List (Path × List Char)),
        (controlRunWAux checkE ignore e (pre ++ f :: post)).2 = some err := by
  intro pre
  induction pre with
  | nil =>
    intro _ e post
    show (controlRunWAux checkE ignore e (f :: post)).2 = some err
    rw [controlRunWAux, if_neg (by simp [hfi]), hce]
  | cons g pre ih =>
    intro hpre e post
    obtain ⟨out, hout⟩ := hpre g (List.mem_cons_self g pre)
    show (controlRunWAux checkE ignore e ((g :: pre) ++ f :: post)).2 = some err
    rw [List.cons_append]
    by_cases hg : containsSub g.1 ignore
    · rw [controlRunWAux, if_pos hg]
      exact ih (fun x hx => hpre x (List.mem_cons_of_mem g hx)) e post
    · rw [controlRunWAux, if_neg hg, hout]
      exact ih (fun x hx => hpre x (List.mem_cons_of_mem g hx)) _ post

theorem convertRunW_fail
    (convE : Path × List Char → Except CMError (List Char)) (sfx : Path)
    (f : Path × List Char) (err : CMError)
    (hfs : containsSub f.1 sfx = false) (hve : convE f = .error err) :
    ∀ pre : List (Path × List Char),
      (∀ g ∈ pre, ∃ out, convE g = .ok out) →
      ∀ post : List (Path × List Char),
        convertRunW convE sfx (pre ++ f :: post)
          = ((convertRunW convE sfx pre).1, some err) := by
  intro pre
  induction pre with
  | nil =>
    intro _ post
    show convertRunW convE sfx (f :: post) = ([], some err)
    rw [convertRunW, if_neg (by simp [hfs]), hve]
  | cons g pre ih =>
    intro hpre post
    obtain ⟨out, hout⟩ := hpre g (List.mem_cons_self g pre)
    have ih' := ih (fun x hx => hpre x (List.mem_cons_of_mem g hx)) post
    show convertRunW convE sfx ((g :: pre) ++ f :: post)
      = ((convertRunW convE sfx (g :: pre)).1, some err)
    rw [List.cons_append]
    by_cases hg : containsSub g.1 sfx
    · rw [convertRunW, if_pos hg, ih']
      rw [show convertRunW convE sfx (g :: pre) = convertRunW convE sfx pre from by
        rw [convertRunW, if_pos hg]]
    · rw [convertRunW, if_neg hg, hout]
      rw [show convertRunW convE sfx (g :: pre)
          = ((outName g.1 sfx, out) :: (convertRunW convE sfx pre).1,
              (convertRunW convE sfx pre).2) from by
        rw [convertRunW, if_neg hg, hout]]
      rw [ih']

/-- Claim C7, confirmed: during `control` or `convert`, an error raised
while processing one (non-skipped) file aborts the whole run: for `control`
the run ends with that error, for `convert` the outputs are exactly those
of the files preceding the failing one — no output is produced for the
failing file, no later file is processed, and no retry occurs (the result
does not depend on `post`). -/
theorem fatal_error_aborts_run
    (checkE convE : Path × List Char → Except CMError (List Char))
    (ignore sfx : Path) (pre post : List (Path × List Char))
    (f : Path × List Char) (err : CMError)
    (hfi : containsSub f.1 ignore = false)
    (hfs : containsSub f.1 sfx = false)
    (hce : checkE f = .error err) (hve : convE f = .error err)
    (hcpre : ∀ g ∈ pre, ∃ out, checkE g = .ok out)
    (hvpre : ∀ g ∈ pre, ∃ out, convE g = .ok out) :
    (controlRunW checkE ignore (pre ++ f :: post)).2 = some err
    ∧ convertRunW convE sfx (pre ++ f :: post)
      = ((convertRunW convE sfx pre).1, some err) :=
  ⟨controlRunWAux_fail checkE ignore f err hfi hce pre hcpre [] post,
    convertRunW_fail convE sfx f err hfs hve pre hvpre post⟩

/-- Concrete fallible per-file operation used by the witness of the abort
theorem: fails on the file named bad.xml, succeeds elsewhere. -/
def cexCheckE : Path × List Char → Except CMError (List Char) :=
  fun g =>
    if g.1 = "bad.xml".toList then Except.error CMError.unsupportedDoc
    else Except.ok []

/-- Witness for `fatal_error_aborts_run` at a concrete input: one failing
file followed by one further file. -/
theorem fatal_error_aborts_run_witness :
    (controlRunW cexCheckE ".mufichecker.xml".toList
        (([] : List (Path × List Char))
          ++ ("bad.xml".toList, []) :: [("later.xml".toList, ['a'])])).2
      = some CMError.unsupportedDoc
    ∧ convertRunW cexCheckE ".mufichecker.xml".toList
        (([] : List (Path × List Char))
          ++ ("bad.xml".toList, []) :: [("later.xml".toList, ['a'])])
      = ((convertRunW cexCheckE ".mufichecker.xml".toList []).1,
          some CMError.unsupportedDoc) :=
  fatal_error_aborts_run cexCheckE cexCheckE
    ".mufichecker.xml".toList ".mufichecker.xml".toList
    [] [("later.xml".toList, ['a'])] ("bad.xml".toList, [])
    CMError.unsupportedDoc
    (by decide) (by decide) (by simp [cexCheckE]) (by simp [cexCheckE])
    (fun g hg => absurd hg (List.not_mem_nil g))
    (fun g hg => absurd hg (List.not_mem_nil g))

/-! ## Claims C8 and C9: the commands as functions of a file system -/

/-- `control` reading its inputs through a file system: the table file at
`tablePath` is read and parsed into the table keys by the abstract `parseT`
(Translator.parse is not in the sources), and every listed file is read
from `fs`. -/
def controlFS (norm : List Char → List Char) (charName : Char → List Char)
    (parseT : List Char → List Char) (fs : FS) (tablePath : Path)
    (ignore : Path) (paths : List Path) :
    Nat × Bool × List (List Char × List Char × List Char × Path) :=
  controlResult norm charName (parseT (fs tablePath)) ignore
    (paths.map (fun p => (p, fs p)))

/-- `convert` reading its inputs through a file system; `convT` is the
abstract per-document conversion, a function of the table file contents and
the document contents (chocomufin.funcs.convert_file is not in the
sources). -/
def convertFS (convT : List Char → List Char → List Char) (fs : FS)
    (tablePath : Path) (sfx : Path) (paths : List Path) :
    List (Path × List Char) :=
  convertOutputs (fun f => convT (fs tablePath) f.2) sfx
    (paths.map (fun p => (p, fs p)))

/-- `generate` reading its inputs through a file system; `updateT`
abstracts chocomufin.funcs.update_table (not in the sources) as an
arbitrary function of the existing table contents and the listed
documents. -/
def generateFS
    (updateT : List Char → List (Path × List Char) → List (Char × List Char))
    (fs : FS) (tablePath : Path) (paths : List Path) :
    List (Char × List Char) :=
  updateT (fs tablePath) (paths.map (fun p => (p, fs p)))

theorem bool_eq_false (b : Bool) (h : ¬b = true) : b = false := by
  cases b
  · rfl
  · exact absurd rfl h

theorem control_foldl_content_congr (norm : List Char → List Char)
    (keys : List Char) (ignore : Path) (fs1 fs2 : FS) :
    ∀ paths : List Path,
      (∀ p ∈ paths, containsSub p ignore = false → fs1 p = fs2 p) →
      ∀ e : Errors,
        (paths.map (fun p => (p, fs1 p))).foldl
          (fun e2 f =>
            if containsSub f.1 ignore then e2
            else (check_file norm keys f.2).foldl
              (fun e3 c2 => addError e3 c2 f.1) e2)
          e
        = (paths.map (fun p => (p, fs2 p))).foldl
            (fun e2 f =>
              if containsSub f.1 ignore then e2
              else (check_file norm keys f.2).foldl
                (fun e3 c2 => addError e3 c2 f.1) e2)
            e := by
  intro paths
  induction paths with
  | nil => intro _ e; rfl
  | cons p rest ih =>
    intro h e
    rw [List.map_cons, List.map_cons, List.foldl_cons, List.foldl_cons]
    by_cases hig : containsSub p ignore
    · rw [if_pos hig, if_pos hig]
      exact ih (fun x hx hfx => h x (List.mem_cons_of_mem p hx) hfx) e
    · have hfp : fs1 p = fs2 p :=
        h p (List.mem_cons_self p rest) (bool_eq_false _ hig)
      rw [if_neg hig, if_neg hig, hfp]
      exact ih (fun x hx hfx => h x (List.mem_cons_of_mem p hx) hfx) _

/-- Claim C9, confirmed: `control` never reads a file whose path contains
the ignore string (default ".mufichecker.xml"): two runs over file systems
that agree on the table file and on every non-ignored listed file — and may
differ arbitrarily on the ignored ones — produce the same exit code, the
same message, and the same report, so characters in previously converted
outputs can never cause a validation failure. -/
theorem control_ignores_ignored_files (norm : List Char → List Char)
    (charName : Char → List Char) (parseT : List Char → List Char)
    (fs1 fs2 : FS) (tablePath ignore : Path) (paths : List Path)
    (ht : fs1 tablePath = fs2 tablePath)
    (hp : ∀ p ∈ paths, containsSub p ignore = false → fs1 p = fs2 p) :
    controlFS norm charName parseT fs1 tablePath ignore paths
      = controlFS norm charName parseT fs2 tablePath ignore paths := by
  unfold controlFS
  rw [ht]
  have herr : controlErrors norm (parseT (fs2 tablePath)) ignore
      (paths.map (fun p => (p, fs1 p)))
      = controlErrors norm (parseT (fs2 tablePath)) ignore
        (paths.map (fun p => (p, fs2 p))) := by
    unfold controlErrors
    exact control_foldl_content_congr norm _ ignore fs1 fs2 paths hp []
  unfold controlResult
  rw [herr]

/-- File systems used by the hyperproperty witnesses: they differ exactly
on the file whose name contains the default ignore string. -/
def cexFS1 : FS :=
  fun p => if p = "out.mufichecker.xml".toList then ['z'] else ['a']

/-- Second file system of the witness pair; see `cexFS1`. -/
def cexFS2 : FS :=
  fun p => if p = "out.mufichecker.xml".toList then ['q'] else ['a']

/-- Witness for `control_ignores_ignored_files` at a concrete input: the
two file systems differ only in the contents of the ignored file
out.mufichecker.xml. -/
theorem control_ignores_ignored_files_witness :
    controlFS (fun s => s) (fun _ => []) (fun t => t) cexFS1
        "table.csv".toList ".mufichecker.xml".toList
        ["doc.xml".toList, "out.mufichecker.xml".toList]
      = controlFS (fun s => s) (fun _ => []) (fun t => t) cexFS2
          "table.csv".toList ".mufichecker.xml".toList
          ["doc.xml".toList, "out.mufichecker.xml".toList] :=
  control_ignores_ignored_files (fun s => s) (fun _ => []) (fun t => t)
    cexFS1 cexFS2 "table.csv".toList ".mufichecker.xml".toList
    ["doc.xml".toList, "out.mufichecker.xml".toList]
    (by simp [cexFS1, cexFS2])
    (by
      intro p hp hig
      rcases List.mem_cons.mp hp with rfl | hp2
      · simp [cexFS1, cexFS2]
      · rcases List.mem_cons.mp hp2 with rfl | hp3
        · exact absurd hig (by decide)
        · exact absurd hp3 (List.not_mem_nil p))

/-- Claim C8, confirmed: every command is deterministic and stateless: the
embedding has no mutable state, and each command's output is a function of
the file contents it reads, its arguments, and the normalization scheme —
two runs over file systems with identical contents for the table file and
the listed files produce identical outputs (`inspect` reads no files at
all, so its output depends only on the argument string). -/
theorem commands_deterministic_stateless (norm : List Char → List Char)
    (charName : Char → List Char) (parseT : List Char → List Char)
    (convT : List Char → List Char → List Char)
    (updateT : List Char → List (Path × List Char) → List (Char × List Char))
    (fs1 fs2 : FS) (tablePath ignore sfx : Path) (paths : List Path)
    (s : List Char)
    (ht : fs1 tablePath = fs2 tablePath)
    (hp : ∀ p ∈ paths, fs1 p = fs2 p) :
    controlFS norm charName parseT fs1 tablePath ignore paths
      = controlFS norm charName parseT fs2 tablePath ignore paths
    ∧ convertFS convT fs1 tablePath sfx paths
      = convertFS convT fs2 tablePath sfx paths
    ∧ generateFS updateT fs1 tablePath paths
      = generateFS updateT fs2 tablePath paths
    ∧ inspectRows norm s = inspectRows norm s := by
  have hmap : paths.map (fun p => (p, fs1 p)) = paths.map (fun p => (p, fs2 p)) := by
    apply List.map_congr_left
    intro p hp'
    rw [hp p hp']
  refine ⟨?_, ?_, ?_, rfl⟩
  · unfold controlFS
    rw [ht, hmap]
  · unfold convertFS
    rw [ht, hmap]
  · unfold generateFS
    rw [ht, hmap]

/-- Witness for `commands_deterministic_stateless` at a concrete input:
the file systems agree on the table file and the single listed file (they
differ on a file that no command reads). -/
theorem commands_deterministic_stateless_witness :
    controlFS (fun s => s) (fun _ => []) (fun t => t) cexFS1
        "table.csv".toList ".mufichecker.xml".toList ["doc.xml".toList]
      = controlFS (fun s => s) (fun _ => []) (fun t => t) cexFS2
          "table.csv".toList ".mufichecker.xml".toList ["doc.xml".toList]
    ∧ convertFS (fun _ d => d) cexFS1 "table.csv".toList
        ".mufichecker.xml".toList ["doc.xml".toList]
      = convertFS (fun _ d => d) cexFS2 "table.csv".toList
          ".mufichecker.xml".toList ["doc.xml".toList]
    ∧ generateFS (fun _ _ => []) cexFS1 "table.csv".toList ["doc.xml".toList]
      = generateFS (fun _ _ => []) cexFS2 "table.csv".toList ["doc.xml".toList]
    ∧ inspectRows (fun s => s) ['x'] = inspectRows (fun s => s) ['x'] :=
  commands_deterministic_stateless (fun s => s) (fun _ => []) (fun t => t)
    (fun _ d => d) (fun _ _ => []) cexFS1 cexFS2 "table.csv".toList
    ".mufichecker.xml".toList ".mufichecker.xml".toList ["doc.xml".toList]
    ['x']
    (by simp [cexFS1, cexFS2])
    (by
      intro p hp
      rcases List.mem_cons.mp hp with rfl | hp2
      · simp [cexFS1, cexFS2]
      · exact absurd hp2 (List.not_mem_nil p))

end Chocomufin
